import Mathlib

/-!
Verification of the photomosaic matching engine (`mosaic.py`).

Pixel data is modelled shallowly: a color is the list of its integer channel
values, an image is its grid of pixels (rows of colors).  The PIL raster
primitives (decoding, anti-aliased resizing) are external collaborators: the
average-color reduction `avg_rgb` is therefore a function parameter wherever
it is used, and the target preparer / tile processor are modelled by the
arithmetic the source performs on dimensions and crop boxes.
-/

namespace Mosaic

/-- A color: the tuple of integer channel values of one pixel. -/
abbrev Color := List Int

/-- An image: rows of pixels.  Mirrors the 2-D pixel access PIL provides. -/
structure Img where
  data : List (List Color)
deriving DecidableEq

/-- Image height in pixels (`img.height`). -/
def Img.height (img : Img) : Nat := img.data.length

/-- Image width in pixels (`img.width`). -/
def Img.width (img : Img) : Nat := (img.data.headD []).length

/-- All channel values of an image in row-major order: the flat view
`np.asarray` takes before subtracting and summing. -/
def Img.flat (img : Img) : List Int := (img.data.map List.flatten).flatten

/-- `Image.crop((left, upper, right, lower))` restricted to in-bounds boxes:
keep rows `upper ≤ i < lower` and in them columns `left ≤ j < right`. -/
def Img.crop (img : Img) (left upper right lower : Nat) : Img :=
  ⟨((img.data.drop upper).take (lower - upper)).map
      (fun row => (row.drop left).take (right - left))⟩

/-- `error(x, y)` from `mosaic.py` lines 80-83: the sum of squared
differences of corresponding values (differences taken over the integers,
as numpy does after the float conversion — no wrap-around). -/
def error (x y : List Int) : Int :=
  (List.zipWith (fun a b => (a - b) ^ 2) x y).sum

/-- `error` applied to two whole images, as the 'diff' method does:
numpy flattens the pixel arrays and sums over every position and channel. -/
def errorImg (a b : Img) : Int := error a.flat b.flat

/-- `err < min_err` where `min_err` starts as `float('inf')`: `none` stands
for that infinity, so every error beats it. -/
def ltInf (e : Int) : Option Int → Bool
  | none => true
  | some m => decide (e < m)

/-- The strict-`<` minimum scan shared by both matching loops: state
`(min_err, best_match)` starts at `(inf, None)`, and each element whose
score strictly beats the running minimum replaces the champion. -/
def scanMin {α : Type} (f : α → Int) : List α → Option Int → Option α → Option α
  | [], _, best => best
  | t :: ts, minErr, best =>
    if ltInf (f t) minErr then scanMin f ts (some (f t)) (some t)
    else scanMin f ts minErr best

/-- The 'avg'-mode loop of `find_best_match` when `cached_avgs` is empty
(lines 92-99): per tile, compute its average, append it to the cache, then
run the strict-`<` minimum update.  Returns `(best_match, cached_avgs)`. -/
def scanAvgNew (avgRgb : Img → Color) (targetAvg : Color) :
    List Img → Option Int → Option Img → List Color → Option Img × List Color
  | [], _, best, acc => (best, acc)
  | t :: ts, minErr, best, acc =>
    if ltInf (error targetAvg (avgRgb t)) minErr then
      scanAvgNew avgRgb targetAvg ts (some (error targetAvg (avgRgb t)))
        (some t) (acc ++ [avgRgb t])
    else scanAvgNew avgRgb targetAvg ts minErr best (acc ++ [avgRgb t])

/-- Python's `list.index(a)`: position of the first element equal to `a`
(the length if `a` is absent, in which case Python raises `ValueError` —
the caller turns that overflow into a lookup failure). -/
def listIndex (a : Color) : List Color → Nat
  | [] => 0
  | b :: l => if b = a then 0 else listIndex a l + 1

/-- The 'avg'-mode loop of `find_best_match` when `cached_avgs` is already
populated (lines 100-105): iterate over the cached averages and, on a strict
improvement, look the winning tile up by value with
`tiles[cached_avgs.index(avg)]`.  `none` models the `IndexError` Python
raises when that lookup runs past the end of `tiles`. -/
def scanAvgCached (targetAvg : Color) (tiles : List Img) (full : List Color) :
    List Color → Option Int → Option Img → Option (Option Img)
  | [], _, best => some best
  | a :: rest, minErr, best =>
    if ltInf (error targetAvg a) minErr then
      match tiles.get? (listIndex a full) with
      | some t => scanAvgCached targetAvg tiles full rest
          (some (error targetAvg a)) (some t)
      | none => none
    else scanAvgCached targetAvg tiles full rest minErr best

/-- Outcome of one `find_best_match` call, together with the state of the
module-global `cached_avgs` list when the call ends.  `exitUnknown` is the
`sys.exit()` taken on an unknown method; `indexErr` the `IndexError` of the
by-value cache lookup. -/
inductive FBMResult
  | ok (best : Option Img) (cache : List Color)
  | indexErr (cache : List Color)
  | exitUnknown (cache : List Color)
deriving DecidableEq

/-- The `cached_avgs` list as it stands when the call ends. -/
def FBMResult.cacheOut : FBMResult → List Color
  | .ok _ c => c
  | .indexErr c => c
  | .exitUnknown c => c

/-- `find_best_match(target, tiles, method)` from `mosaic.py` lines 86-120.
`avgRgb` is the external PIL reduction `avg_rgb` (anti-aliased resize to
1×1); `cache` is the module-global `cached_avgs` on entry. -/
def find_best_match (avgRgb : Img → Color) (target : Img) (tiles : List Img)
    (method : String) (cache : List Color) : FBMResult :=
  if method = "avg" then
    let targetAvg := avgRgb target
    if cache = [] then
      let r := scanAvgNew avgRgb targetAvg tiles none none cache
      FBMResult.ok r.1 r.2
    else
      match scanAvgCached targetAvg tiles cache cache none none with
      | some best => FBMResult.ok best cache
      | none => FBMResult.indexErr cache
  else if method = "diff" then
    FBMResult.ok (scanMin (fun tile => errorImg target tile) tiles none none) cache
  else FBMResult.exitUnknown cache

/-- Reference form of the strict-`<` scan: the first element achieving the
minimum of `f`, computed by structural recursion from the right. -/
def firstMin {α : Type} (f : α → Int) : List α → Option α
  | [] => none
  | t :: ts =>
    match firstMin f ts with
    | none => some t
    | some u => if f t ≤ f u then some t else some u

/-- Index `i` points at a first minimum of `f` over `l`: no element scores
lower, and every earlier element scores strictly higher. -/
def IsFirstMin {α : Type} (f : α → Int) (l : List α) (i : Nat)
    (h : i < l.length) : Prop :=
  (∀ j (hj : j < l.length), f (l.get ⟨i, h⟩) ≤ f (l.get ⟨j, hj⟩)) ∧
  (∀ j (hj : j < l.length), j < i → f (l.get ⟨i, h⟩) < f (l.get ⟨j, hj⟩))

/-- `gridify(image, tile_size)` from lines 66-77: slice the prepared target
into `rows = height // tileH` by `cols = width // tileW` cells, cell `(i, j)`
being the crop `[j*w, i*h, (j+1)*w, (i+1)*h]`. -/
def gridify (image : Img) (tile_size : Nat × Nat) : List (List Img) :=
  let w := tile_size.1
  let h := tile_size.2
  let rows := image.height / h
  let cols := image.width / w
  (List.range rows).map (fun i =>
    (List.range cols).map (fun j =>
      image.crop (j * w) (i * h) ((j + 1) * w) ((i + 1) * h)))

/-- Abnormal terminations that can escape the matching loop, each carrying
the state of `cached_avgs` at that point. -/
inductive RunErr
  | exitUnknown
  | indexErr
deriving DecidableEq

/-- Outcome of the per-cell matching loop: either it aborted (unknown
method or lookup failure) or it produced the row-major list of best
matches; both carry the final `cached_avgs`. -/
inductive CellsResult
  | aborted (e : RunErr) (cache : List Color)
  | matched (best : List (Option Img)) (cache : List Color)
deriving DecidableEq

/-- The `cached_avgs` list when the matching loop ends. -/
def CellsResult.cacheOut : CellsResult → List Color
  | .aborted _ c => c
  | .matched _ c => c

/-- The per-cell matching loop of `mosaic` (lines 126-134), threading the
module-global `cached_avgs` through the cells in row-major order. -/
def match_cells (avgRgb : Img → Color) (tiles : List Img) (method : String) :
    List Img → List Color → CellsResult
  | [], cache => .matched [] cache
  | cell :: rest, cache =>
    match find_best_match avgRgb cell tiles method cache with
    | .ok best cache2 =>
      match match_cells avgRgb tiles method rest cache2 with
      | .matched bs cacheF => .matched (best :: bs) cacheF
      | .aborted e cacheF => .aborted e cacheF
    | .indexErr cache2 => .aborted .indexErr cache2
    | .exitUnknown cache2 => .aborted .exitUnknown cache2

/-- Line 139: `output = Image.new(mode, image.size)` — the compositor's
output buffer has exactly the prepared target's size. -/
def mosaic_alloc_size (image : Img) : Nat × Nat := (image.width, image.height)

/-- Result of one `mosaic` call: either the output was saved (with the
allocated buffer's dimensions) or pasting hit a `None` best match
(`output.paste(None, ...)` raises). -/
inductive MosaicOutcome
  | saved (w h : Nat)
  | pasteError (w h : Nat)
deriving DecidableEq

/-- How one `mosaic` call ends, with the final `cached_avgs`. -/
inductive MosaicRun
  | aborted (e : RunErr) (cache : List Color)
  | finished (out : MosaicOutcome) (cache : List Color)
deriving DecidableEq

/-- The `cached_avgs` list when the `mosaic` call ends. -/
def MosaicRun.cacheOut : MosaicRun → List Color
  | .aborted _ c => c
  | .finished _ c => c

/-- `mosaic(image, tiles, tile_size, out_file, mode, method)` lines 123-144:
gridify, match every cell (threading `cached_avgs`), allocate the output
buffer at the prepared target's size, and paste the matched tiles in order;
pasting a `None` match fails the run. -/
def mosaic_run (avgRgb : Img → Color) (image : Img) (tiles : List Img)
    (tile_size : Nat × Nat) (method : String) (cache : List Color) :
    MosaicRun :=
  match match_cells avgRgb tiles method (gridify image tile_size).flatten cache with
  | .aborted e cacheF => .aborted e cacheF
  | .matched bs cacheF =>
    if bs.all Option.isSome then
      .finished (.saved (mosaic_alloc_size image).1 (mosaic_alloc_size image).2) cacheF
    else
      .finished (.pasteError (mosaic_alloc_size image).1 (mosaic_alloc_size image).2) cacheF

/-- Dimension bookkeeping of `get_target` (lines 24-34): scale both axes,
then trim `(w mod t) // 2` from left and right and `(h mod t) // 2` from top
and bottom — both margins computed from `tile_size[0]`, the tile's width. -/
def get_target_dims (imgW imgH : Nat) (tileW : Int) (scale : Int) : Int × Int :=
  let w : Int := imgW * scale
  let h : Int := imgH * scale
  let wRem := (w % tileW) / 2
  let hRem := (h % tileW) / 2
  (w - 2 * wRem, h - 2 * hRem)

/-- The crop box `process_tile` (lines 37-44) passes to `resize`:
`(w_crop, h_crop, w - w_crop, h - h_crop)` with
`w_crop = (w - min(w, h)) // 2` and `h_crop = (h - min(w, h)) // 2`. -/
def process_tile_box (w h : Nat) : Nat × Nat × Nat × Nat :=
  let minDim := min w h
  let wCrop := (w - minDim) / 2
  let hCrop := (h - minDim) / 2
  (wCrop, hCrop, w - wCrop, h - hCrop)

/-- Milestones `main` reaches, in order. -/
inductive Event
  | targetPrepared
  | tilesLoaded
  | mosaicDone
deriving DecidableEq

/-- How a run of `main` ends (after successful argument parsing). -/
inductive MainResult
  | unknownMethod
  | tilesTooLarge
  | completed
deriving DecidableEq

/-- `main` from lines 147-183 after argument parsing: clamp the scale to a
minimum of 1, reject unknown methods before touching the target, prepare the
target, reject tile sizes exceeding the prepared target's smaller dimension
before loading tiles, then load the tiles and run the mosaic.  The event
list records which pipeline stages were reached, in order. -/
def main_run (imgW imgH : Nat) (size scale : Int) (method : String) :
    List Event × MainResult :=
  let scale2 := if scale < 1 then 1 else scale
  if method ≠ "avg" ∧ method ≠ "diff" then ([], .unknownMethod)
  else
    let dims := get_target_dims imgW imgH size scale2
    if size > min dims.1 dims.2 then ([.targetPrepared], .tilesTooLarge)
    else ([.targetPrepared, .tilesLoaded, .mosaicDone], .completed)

theorem error_nil_left (y : List Int) : error [] y = 0 := by
  cases y <;> rfl

theorem error_cons (a b : Int) (x y : List Int) :
    error (a :: x) (b :: y) = (a - b) ^ 2 + error x y := by
  simp [error]

theorem error_nonneg (x y : List Int) : 0 ≤ error x y := by
  induction x generalizing y with
  | nil => simp [error_nil_left]
  | cons a x ih =>
    cases y with
    | nil => simp [error]
    | cons b y =>
      rw [error_cons]
      have h1 : 0 ≤ (a - b) ^ 2 := sq_nonneg _
      have h2 := ih y
      omega

theorem error_self (t : List Int) : error t t = 0 := by
  induction t with
  | nil => rfl
  | cons a t ih => rw [error_cons, ih]; ring

theorem error_comm (x y : List Int) : error x y = error y x := by
  unfold error
  rw [List.zipWith_comm_of_comm]
  intro a b
  ring

theorem scanMin_some {α : Type} (f : α → Int) (l : List α) :
    ∀ (m : Int) (b : Option α),
    scanMin f l (some m) b =
      (firstMin f l).elim b (fun u => if f u < m then some u else b) := by
  induction l with
  | nil => intro m b; rfl
  | cons t ts ih =>
    intro m b
    by_cases h : f t < m
    · have hstep : scanMin f (t :: ts) (some m) b =
          scanMin f ts (some (f t)) (some t) := by
        simp [scanMin, ltInf, h]
      rw [hstep, ih]
      cases hts : firstMin f ts with
      | none => simp [firstMin, hts, h]
      | some u =>
        simp only [firstMin, hts, Option.elim_some]
        by_cases hu : f t ≤ f u
        · have h1 : ¬ f u < f t := not_lt.mpr hu
          simp [hu, h1, h]
        · have h1 : f u < f t := not_le.mp hu
          have h2 : f u < m := lt_trans h1 h
          simp [hu, h1, h2]
    · have hstep : scanMin f (t :: ts) (some m) b =
          scanMin f ts (some m) b := by
        simp [scanMin, ltInf, h]
      rw [hstep, ih]
      cases hts : firstMin f ts with
      | none => simp [firstMin, hts, h]
      | some u =>
        simp only [firstMin, hts, Option.elim_some]
        by_cases hu : f t ≤ f u
        · have h1 : ¬ f u < m := fun hc => h (lt_of_le_of_lt hu hc)
          simp [hu, h1, h]
        · simp [hu]

theorem scanMin_eq_firstMin {α : Type} (f : α → Int) (t : α) (ts : List α) :
    scanMin f (t :: ts) none none = firstMin f (t :: ts) := by
  have h0 : scanMin f (t :: ts) none none =
      scanMin f ts (some (f t)) (some t) := by
    simp [scanMin, ltInf]
  rw [h0, scanMin_some]
  cases hts : firstMin f ts with
  | none => simp [firstMin, hts]
  | some u =>
    simp only [firstMin, hts, Option.elim_some]
    by_cases hle : f t ≤ f u
    · have h1 : ¬ f u < f t := not_lt.mpr hle
      simp [hle, h1]
    · have h1 : f u < f t := not_le.mp hle
      simp [hle, h1]

theorem firstMin_cons {α : Type} (f : α → Int) (t : α) (ts : List α) :
    firstMin f (t :: ts) =
      (firstMin f ts).elim (some t)
        (fun u => if f t ≤ f u then some t else some u) := by
  cases hts : firstMin f ts <;> simp [firstMin, hts]

theorem firstMin_spec {α : Type} (f : α → Int) :
    ∀ (l : List α), l ≠ [] →
      ∃ i, ∃ h : i < l.length,
        firstMin f l = some (l.get ⟨i, h⟩) ∧ IsFirstMin f l i h := by
  intro l
  induction l with
  | nil => intro h; exact absurd rfl h
  | cons t ts ih =>
    intro _
    cases ts with
    | nil =>
      refine ⟨0, by simp, rfl, ?_, ?_⟩
      · intro j hj
        have : j = 0 := by simpa using hj
        subst this
        exact le_refl _
      · intro j hj hji
        omega
    | cons t2 ts2 =>
      obtain ⟨i, h, heq, hmin, hfirst⟩ := ih (by simp)
      by_cases hle : f t ≤ f ((t2 :: ts2).get ⟨i, h⟩)
      · refine ⟨0, by simp, ?_, ?_, ?_⟩
        · rw [firstMin_cons, heq]
          simp only [Option.elim_some]
          rw [if_pos hle]
          rfl
        · intro j hj
          cases j with
          | zero => exact le_refl _
          | succ j2 =>
            have hj2 : j2 < (t2 :: ts2).length := by
              simpa using hj
            exact le_trans hle (hmin j2 hj2)
        · intro j hj hji
          omega
      · have hlt : f ((t2 :: ts2).get ⟨i, h⟩) < f t := not_le.mp hle
        refine ⟨i + 1, by simpa using h, ?_, ?_, ?_⟩
        · rw [firstMin_cons, heq]
          simp only [Option.elim_some]
          rw [if_neg hle]
          rfl
        · intro j hj
          cases j with
          | zero => exact le_of_lt hlt
          | succ j2 =>
            have hj2 : j2 < (t2 :: ts2).length := by simpa using hj
            exact hmin j2 hj2
        · intro j hj hji
          cases j with
          | zero => exact hlt
          | succ j2 =>
            have hj2 : j2 < (t2 :: ts2).length := by simpa using hj
            exact hfirst j2 hj2 (by omega)

theorem scanAvgNew_fst (f : Img → Color) (c : Color) :
    ∀ (l : List Img) (m : Option Int) (b : Option Img) (acc : List Color),
      (scanAvgNew f c l m b acc).1 =
        scanMin (fun t => error c (f t)) l m b := by
  intro l
  induction l with
  | nil => intro m b acc; rfl
  | cons t ts ih =>
    intro m b acc
    by_cases h : ltInf (error c (f t)) m = true
    · simp only [scanAvgNew, scanMin, h, if_true]
      exact ih _ _ _
    · simp only [scanAvgNew, scanMin, h, if_false]
      exact ih _ _ _

theorem scanAvgNew_snd (f : Img → Color) (c : Color) :
    ∀ (l : List Img) (m : Option Int) (b : Option Img) (acc : List Color),
      (scanAvgNew f c l m b acc).2 = acc ++ l.map f := by
  intro l
  induction l with
  | nil => intro m b acc; simp [scanAvgNew]
  | cons t ts ih =>
    intro m b acc
    show (if ltInf (error c (f t)) m = true then
        scanAvgNew f c ts (some (error c (f t))) (some t) (acc ++ [f t])
      else scanAvgNew f c ts m b (acc ++ [f t])).2 = acc ++ (t :: ts).map f
    by_cases h : ltInf (error c (f t)) m = true
    · rw [if_pos h, ih]
      simp
    · rw [if_neg h, ih]
      simp

theorem listIndex_append_self (a : Color) (r : List Color) :
    ∀ (l : List Color), a ∉ l → listIndex a (l ++ a :: r) = l.length := by
  intro l
  induction l with
  | nil => intro _; simp [listIndex]
  | cons b l ih =>
    intro hmem
    have hba : ¬ b = a := by
      intro hba
      exact hmem (by simp [hba])
    show (if b = a then 0 else listIndex a (l ++ a :: r) + 1) = l.length + 1
    rw [if_neg hba, ih (fun hc => hmem (List.mem_cons_of_mem _ hc))]

theorem get?_append_length {α : Type} (x : α) (r : List α) :
    ∀ (l : List α), (l ++ x :: r).get? l.length = some x := by
  intro l
  induction l with
  | nil => rfl
  | cons b l ih => simpa using ih

/-- When the cache holds exactly the averages of the tiles in order, the
cached scan never hits an out-of-range lookup and selects exactly as the
strict-`<` scan over the tiles would. -/
theorem scanAvgCached_eq (c : Color) (f : Img → Color) :
    ∀ (t2 t1 : List Img) (m : Option Int) (b : Option Img),
      (∀ a ∈ t1.map f, ltInf (error c a) m = false) →
      scanAvgCached c (t1 ++ t2) ((t1 ++ t2).map f) (t2.map f) m b =
        some (scanMin (fun t => error c (f t)) t2 m b) := by
  intro t2
  induction t2 with
  | nil => intro t1 m b _; rfl
  | cons t ts ih =>
    intro t1 m b hinv
    by_cases h : ltInf (error c (f t)) m = true
    · have hnotmem : f t ∉ t1.map f := by
        intro hmem
        have := hinv (f t) hmem
        rw [this] at h
        cases h
      have hidx : listIndex (f t) ((t1 ++ t :: ts).map f) = t1.length := by
        have : (t1 ++ t :: ts).map f = t1.map f ++ f t :: ts.map f := by simp
        rw [this, listIndex_append_self _ _ _ hnotmem, List.length_map]
      have hget : (t1 ++ t :: ts).get? t1.length = some t :=
        get?_append_length t ts t1
      have hmap : (t :: ts).map f = f t :: ts.map f := rfl
      rw [hmap]
      simp only [scanAvgCached, scanMin, h, if_true, hidx, hget]
      have hassoc : t1 ++ t :: ts = (t1 ++ [t]) ++ ts := by simp
      rw [hassoc]
      apply ih
      intro a hmem
      rw [List.map_append] at hmem
      rcases List.mem_append.mp hmem with hmem1 | hmem1
      · have hold := hinv a hmem1
        cases m with
        | none =>
          exfalso
          simp [ltInf] at hold
        | some m0 =>
          simp only [ltInf, decide_eq_false_iff_not, not_lt] at hold ⊢
          simp only [ltInf, decide_eq_true_eq] at h
          omega
      · have ha : a = f t := by simpa using hmem1
        subst ha
        simp [ltInf]
    · have hmap : (t :: ts).map f = f t :: ts.map f := rfl
      rw [hmap]
      simp only [scanAvgCached, scanMin, h, if_false]
      have hassoc : t1 ++ t :: ts = (t1 ++ [t]) ++ ts := by simp
      rw [hassoc]
      apply ih
      intro a hmem
      rw [List.map_append] at hmem
      rcases List.mem_append.mp hmem with hmem1 | hmem1
      · exact hinv a hmem1
      · have ha : a = f t := by simpa using hmem1
        subst ha
        simpa using h

theorem find_best_match_avg_empty (f : Img → Color) (target : Img)
    (tiles : List Img) :
    find_best_match f target tiles "avg" [] =
      FBMResult.ok (scanMin (fun t => error (f target) (f t)) tiles none none)
        (tiles.map f) := by
  show FBMResult.ok (scanAvgNew f (f target) tiles none none []).1
      (scanAvgNew f (f target) tiles none none []).2 = _
  rw [scanAvgNew_fst, scanAvgNew_snd]
  simp

theorem find_best_match_avg_cached (f : Img → Color) (target : Img)
    (tiles : List Img) (hne : tiles ≠ []) :
    find_best_match f target tiles "avg" (tiles.map f) =
      FBMResult.ok (scanMin (fun t => error (f target) (f t)) tiles none none)
        (tiles.map f) := by
  have hcne : tiles.map f ≠ [] := by
    intro hc
    exact hne (List.map_eq_nil_iff.mp hc)
  have hscan := scanAvgCached_eq (f target) f tiles [] none none (by simp)
  simp only [List.nil_append, List.map_nil] at hscan
  simp only [find_best_match, if_pos rfl, if_neg hcne, hscan]
  simp

theorem find_best_match_diff (f : Img → Color) (target : Img)
    (tiles : List Img) (cache : List Color) :
    find_best_match f target tiles "diff" cache =
      FBMResult.ok (scanMin (fun tile => errorImg target tile) tiles none none)
        cache := by
  rfl

/-- Every `find_best_match` call leaves `cached_avgs` as it was, except the
first 'avg'-mode call on an empty cache, which appends every tile's
average. -/
theorem find_best_match_cache_extends (f : Img → Color) (target : Img)
    (tiles : List Img) (method : String) (cache : List Color) :
    (find_best_match f target tiles method cache).cacheOut =
      cache ++ (if method = "avg" ∧ cache = [] then tiles.map f else []) := by
  by_cases hm : method = "avg"
  · subst hm
    by_cases hc : cache = []
    · subst hc
      rw [find_best_match_avg_empty]
      simp [FBMResult.cacheOut]
    · simp only [find_best_match, if_pos rfl, if_neg hc]
      cases hscan : scanAvgCached (f target) tiles cache cache none none with
      | some b => simp [FBMResult.cacheOut, hc]
      | none => simp [FBMResult.cacheOut, hc]
  · by_cases hd : method = "diff"
    · subst hd
      simp [find_best_match, FBMResult.cacheOut]
    · simp [find_best_match, hm, hd, FBMResult.cacheOut]

theorem match_cells_cache_extends (f : Img → Color) (tiles : List Img)
    (method : String) :
    ∀ (cells : List Img) (cache : List Color), ∃ s,
      (match_cells f tiles method cells cache).cacheOut = cache ++ s := by
  intro cells
  induction cells with
  | nil =>
    intro cache
    exact ⟨[], by simp [match_cells, CellsResult.cacheOut]⟩
  | cons cell rest ih =>
    intro cache
    have hfbm := find_best_match_cache_extends f cell tiles method cache
    cases hres : find_best_match f cell tiles method cache with
    | ok best cache2 =>
      obtain ⟨s2, hs2⟩ := ih cache2
      rw [hres] at hfbm
      refine ⟨(if method = "avg" ∧ cache = [] then tiles.map f else []) ++ s2, ?_⟩
      simp only [match_cells, hres]
      cases hmc : match_cells f tiles method rest cache2 with
      | matched bs cacheF =>
        rw [hmc] at hs2
        simp only [CellsResult.cacheOut] at hs2 ⊢
        simp only [FBMResult.cacheOut] at hfbm
        rw [hs2, hfbm, List.append_assoc]
      | aborted e cacheF =>
        rw [hmc] at hs2
        simp only [CellsResult.cacheOut] at hs2 ⊢
        simp only [FBMResult.cacheOut] at hfbm
        rw [hs2, hfbm, List.append_assoc]
    | indexErr cache2 =>
      rw [hres] at hfbm
      simp only [FBMResult.cacheOut] at hfbm
      refine ⟨if method = "avg" ∧ cache = [] then tiles.map f else [], ?_⟩
      simp only [match_cells, hres, CellsResult.cacheOut]
      exact hfbm
    | exitUnknown cache2 =>
      rw [hres] at hfbm
      simp only [FBMResult.cacheOut] at hfbm
      refine ⟨if method = "avg" ∧ cache = [] then tiles.map f else [], ?_⟩
      simp only [match_cells, hres, CellsResult.cacheOut]
      exact hfbm

theorem mosaic_run_cache_extends (f : Img → Color) (image : Img)
    (tiles : List Img) (ts : Nat × Nat) (method : String)
    (cache : List Color) :
    ∃ s, (mosaic_run f image tiles ts method cache).cacheOut = cache ++ s := by
  obtain ⟨s, hs⟩ :=
    match_cells_cache_extends f tiles method (gridify image ts).flatten cache
  refine ⟨s, ?_⟩
  simp only [mosaic_run]
  cases hmc : match_cells f tiles method (gridify image ts).flatten cache with
  | aborted e cacheF =>
    rw [hmc] at hs
    simpa [MosaicRun.cacheOut, CellsResult.cacheOut] using hs
  | matched bs cacheF =>
    rw [hmc] at hs
    simp only [CellsResult.cacheOut] at hs
    by_cases hall : bs.all Option.isSome
    · simpa [MosaicRun.cacheOut, hall] using hs
    · simpa [MosaicRun.cacheOut, hall] using hs

/-- With no tiles and an empty cache, every cell matches to `None` and the
cache stays empty, in both methods. -/
theorem match_cells_no_tiles (f : Img → Color) (method : String)
    (hm : method = "avg" ∨ method = "diff") :
    ∀ cells : List Img,
      match_cells f [] method cells [] =
        CellsResult.matched (cells.map fun _ => none) [] := by
  intro cells
  induction cells with
  | nil => rfl
  | cons cell rest ih =>
    have hfbm : find_best_match f cell [] method [] = FBMResult.ok none [] := by
      rcases hm with h | h <;> subst h
      · rw [find_best_match_avg_empty]
        rfl
      · rw [find_best_match_diff]
        rfl
    simp [match_cells, hfbm, ih]

/-- The trimmed length `w − 2⌊(w mod t)/2⌋` is a multiple of `t` exactly
when the remainder `w mod t` is even. -/
theorem trim_dvd_iff (w t : Int) (ht : 0 < t) :
    t ∣ (w - 2 * ((w % t) / 2)) ↔ Even (w % t) := by
  have hident := Int.ediv_add_emod w t
  have hr0 : 0 ≤ w % t := Int.emod_nonneg w (ne_of_gt ht)
  have hrt : w % t < t := Int.emod_lt_of_pos w ht
  rcases Int.even_or_odd (w % t) with he | ho
  · constructor
    · intro _; exact he
    · intro _
      obtain ⟨k, hk⟩ := he
      refine ⟨w / t, ?_⟩
      omega
  · obtain ⟨k, hk⟩ := ho
    constructor
    · intro hdvd
      obtain ⟨c, hc⟩ := hdvd
      have hdvd1 : t ∣ 1 := ⟨c - w / t, by rw [mul_sub]; omega⟩
      have ht1 : t = 1 := by
        have := Int.le_of_dvd one_pos hdvd1
        omega
      omega
    · intro he
      obtain ⟨j, hj⟩ := he
      omega

/-- C1: in 'avg' mode, for every target cell and non-empty tile collection,
`find_best_match` returns the same tile whether `cached_avgs` is empty (the
first-scan path, which computes and appends each tile average) or already
holds exactly the same tiles' averages in order (the cached path, which
finds the winner by value with `cached_avgs.index`) — including when two
distinct tiles share an average, since a strict-`<` update can only happen
at the first occurrence of a value. -/
theorem avg_cache_prewarm_equiv (f : Img → Color) (target : Img)
    (tiles : List Img) (hne : tiles ≠ []) :
    find_best_match f target tiles "avg" [] =
      find_best_match f target tiles "avg" (tiles.map f) ∧
    ∃ best, find_best_match f target tiles "avg" [] =
      FBMResult.ok best (tiles.map f) := by
  rw [find_best_match_avg_empty, find_best_match_avg_cached f target tiles hne]
  exact ⟨rfl, _, rfl⟩

theorem avg_cache_prewarm_equiv_witness :
    (find_best_match (fun _ => [5]) (Img.mk [[[0]]])
        [Img.mk [[[1]]], Img.mk [[[2]]]] "avg" [] =
      find_best_match (fun _ => [5]) (Img.mk [[[0]]])
        [Img.mk [[[1]]], Img.mk [[[2]]]] "avg"
        ([Img.mk [[[1]]], Img.mk [[[2]]]].map (fun _ => [5]))) ∧
    ∃ best, find_best_match (fun _ => [5]) (Img.mk [[[0]]])
        [Img.mk [[[1]]], Img.mk [[[2]]]] "avg" [] =
      FBMResult.ok best ([Img.mk [[[1]]], Img.mk [[[2]]]].map (fun _ => [5])) :=
  avg_cache_prewarm_equiv (fun _ => [5]) (Img.mk [[[0]]])
    [Img.mk [[[1]]], Img.mk [[[2]]]] (by simp)

/-- C2 counterexample: a 3×3 source, square tile size 2, scale 1.  The trim
margin `(3 mod 2) // 2` rounds to zero, so `get_target` leaves the image at
3×3 — not a multiple of the tile size on either axis. -/
theorem get_target_dims_counterexample :
    get_target_dims 3 3 2 1 = (3, 3) ∧
      ∀ k : Int, (get_target_dims 3 3 2 1).1 ≠ 2 * k := by
  constructor
  · decide
  · intro k
    have h : (get_target_dims 3 3 2 1).1 = 3 := by decide
    rw [h]
    omega

/-- C2 amended: after the symmetric trim, each axis of the prepared target
is an exact multiple of the (square) tile size if and only if that axis's
scaled remainder `(dim·scale) mod tileSize` is even; an odd remainder
leaves the axis one pixel past a multiple, because the per-side margin is
the floor of half the remainder. -/
theorem get_target_dims_multiple_iff (imgW imgH : Nat) (t scale : Int)
    (ht : 0 < t) :
    (t ∣ (get_target_dims imgW imgH t scale).1 ↔
      Even (((imgW : Int) * scale) % t)) ∧
    (t ∣ (get_target_dims imgW imgH t scale).2 ↔
      Even (((imgH : Int) * scale) % t)) :=
  ⟨trim_dvd_iff ((imgW : Int) * scale) t ht,
   trim_dvd_iff ((imgH : Int) * scale) t ht⟩

theorem get_target_dims_multiple_iff_witness :
    ((2 : Int) ∣ (get_target_dims 4 6 2 1).1 ↔ Even (((4 : Int) * 1) % 2)) ∧
    ((2 : Int) ∣ (get_target_dims 4 6 2 1).2 ↔ Even (((6 : Int) * 1) % 2)) :=
  get_target_dims_multiple_iff 4 6 2 1 (by decide)

/-- C3 counterexample: a prepared 3×3 target with 2×2 tiles yields a 1×1
grid, yet the compositor allocates — and saves — a 3×3 buffer: the prepared
target's size, not cols·tileW × rows·tileH = 2×2. -/
theorem mosaic_alloc_counterexample :
    mosaic_run (fun _ => [0])
        (Img.mk [[[1], [2], [3]], [[4], [5], [6]], [[7], [8], [9]]])
        [Img.mk [[[7], [7]], [[7], [7]]]] (2, 2) "diff" [] =
      MosaicRun.finished (MosaicOutcome.saved 3 3) [] ∧
    (gridify (Img.mk [[[1], [2], [3]], [[4], [5], [6]], [[7], [8], [9]]])
        (2, 2)).length = 1 ∧
    ((gridify (Img.mk [[[1], [2], [3]], [[4], [5], [6]], [[7], [8], [9]]])
        (2, 2)).headD []).length = 1 ∧
    (3 : Nat) ≠ 1 * 2 := by
  decide

/-- C3 amended: the compositor allocates the output buffer with exactly the
prepared target's dimensions (`Image.new(mode, image.size)`); that
coincides with grid dimensions × tile size only when the tile dimensions
divide the target's. -/
theorem mosaic_alloc_size_spec (image : Img) (tw th : Nat)
    (hth : 0 < th) (h0h : 0 < image.height)
    (hw : tw ∣ image.width) (hh : th ∣ image.height) :
    mosaic_alloc_size image = (image.width, image.height) ∧
    mosaic_alloc_size image =
      (((gridify image (tw, th)).headD []).length * tw,
       (gridify image (tw, th)).length * th) := by
  refine ⟨rfl, ?_⟩
  have hrows : (gridify image (tw, th)).length = image.height / th := by
    simp [gridify]
  have hcols : ((gridify image (tw, th)).headD []).length =
      image.width / tw := by
    have hr : 0 < image.height / th := Nat.div_pos (Nat.le_of_dvd h0h hh) hth
    obtain ⟨r, hr2⟩ := Nat.exists_eq_succ_of_ne_zero (Nat.pos_iff_ne_zero.mp hr)
    simp only [gridify]
    rw [hr2, List.range_succ_eq_map]
    simp
  rw [hcols, hrows, mosaic_alloc_size,
    Nat.div_mul_cancel hw, Nat.div_mul_cancel hh]

theorem mosaic_alloc_size_spec_witness :
    mosaic_alloc_size (Img.mk [[[1], [2]], [[3], [4]]]) = (2, 2) ∧
    mosaic_alloc_size (Img.mk [[[1], [2]], [[3], [4]]]) =
      (((gridify (Img.mk [[[1], [2]], [[3], [4]]]) (2, 2)).headD []).length * 2,
       (gridify (Img.mk [[[1], [2]], [[3], [4]]]) (2, 2)).length * 2) :=
  mosaic_alloc_size_spec (Img.mk [[[1], [2]], [[3], [4]]]) 2 2
    (by decide) (by decide) (by decide) (by decide)

/-- C4: for every target cell and non-empty tile collection, in both modes
`find_best_match` returns a tile achieving the minimum dissimilarity, and
among tiles achieving it the one with the lowest index in iteration order:
the strict-`<` update never lets a later exact tie displace the first
minimum. -/
theorem find_best_match_first_min (f : Img → Color) (target : Img)
    (tiles : List Img) (cache : List Color) (hne : tiles ≠ []) :
    (∃ i, ∃ h : i < tiles.length,
      find_best_match f target tiles "avg" [] =
        FBMResult.ok (some (tiles.get ⟨i, h⟩)) (tiles.map f) ∧
      IsFirstMin (fun t => error (f target) (f t)) tiles i h) ∧
    (∃ i, ∃ h : i < tiles.length,
      find_best_match f target tiles "diff" cache =
        FBMResult.ok (some (tiles.get ⟨i, h⟩)) cache ∧
      IsFirstMin (fun tile => errorImg target tile) tiles i h) := by
  obtain ⟨t, ts, rfl⟩ := List.exists_cons_of_ne_nil hne
  constructor
  · obtain ⟨i, h, heq, hmin⟩ :=
      firstMin_spec (fun t2 => error (f target) (f t2)) (t :: ts) (by simp)
    refine ⟨i, h, ?_, hmin⟩
    rw [find_best_match_avg_empty, scanMin_eq_firstMin, heq]
  · obtain ⟨i, h, heq, hmin⟩ :=
      firstMin_spec (fun tile => errorImg target tile) (t :: ts) (by simp)
    refine ⟨i, h, ?_, hmin⟩
    rw [find_best_match_diff, scanMin_eq_firstMin, heq]

theorem find_best_match_first_min_witness :
    (∃ i, ∃ h : i < ([Img.mk [[[3]]], Img.mk [[[1]]]] : List Img).length,
      find_best_match Img.flat (Img.mk [[[0]]])
          [Img.mk [[[3]]], Img.mk [[[1]]]] "avg" [] =
        FBMResult.ok
          (some (([Img.mk [[[3]]], Img.mk [[[1]]]] : List Img).get ⟨i, h⟩))
          ([Img.mk [[[3]]], Img.mk [[[1]]]].map Img.flat) ∧
      IsFirstMin (fun t => error (Img.flat (Img.mk [[[0]]])) (Img.flat t))
        [Img.mk [[[3]]], Img.mk [[[1]]]] i h) ∧
    (∃ i, ∃ h : i < ([Img.mk [[[3]]], Img.mk [[[1]]]] : List Img).length,
      find_best_match Img.flat (Img.mk [[[0]]])
          [Img.mk [[[3]]], Img.mk [[[1]]]] "diff" [] =
        FBMResult.ok
          (some (([Img.mk [[[3]]], Img.mk [[[1]]]] : List Img).get ⟨i, h⟩)) [] ∧
      IsFirstMin (fun tile => errorImg (Img.mk [[[0]]]) tile)
        [Img.mk [[[3]]], Img.mk [[[1]]]] i h) :=
  find_best_match_first_min Img.flat (Img.mk [[[0]]])
    [Img.mk [[[3]]], Img.mk [[[1]]]] [] (by simp)

/-- C5 counterexample: a 4×3 tile image.  The largest centered inscribed
square would be 3×3, but `process_tile` uses margins `(4−3)//2 = 0`, so the
crop box is the whole 4×3 image — its width is not `min(w, h)`. -/
theorem process_tile_box_counterexample :
    process_tile_box 4 3 = (0, 0, 4, 3) ∧
    (process_tile_box 4 3).2.2.1 - (process_tile_box 4 3).1 ≠ min 4 3 := by
  decide

/-- C5 amended: `process_tile` crops to a centered region (equal margins on
each axis) whose side per axis is `min(w,h)` or `min(w,h)+1`: exactly `min`
iff that axis's overshoot over `min` is even (so always on the smaller
axis), one pixel more when the overshoot is odd. -/
theorem process_tile_box_spec (w h : Nat) :
    (process_tile_box w h).1 = w - (process_tile_box w h).2.2.1 ∧
    (process_tile_box w h).2.1 = h - (process_tile_box w h).2.2.2 ∧
    (min w h ≤ (process_tile_box w h).2.2.1 - (process_tile_box w h).1 ∧
      (process_tile_box w h).2.2.1 - (process_tile_box w h).1 ≤ min w h + 1) ∧
    ((process_tile_box w h).2.2.1 - (process_tile_box w h).1 = min w h ↔
      Even (w - min w h)) ∧
    (min w h ≤ (process_tile_box w h).2.2.2 - (process_tile_box w h).2.1 ∧
      (process_tile_box w h).2.2.2 - (process_tile_box w h).2.1 ≤ min w h + 1) ∧
    ((process_tile_box w h).2.2.2 - (process_tile_box w h).2.1 = min w h ↔
      Even (h - min w h)) := by
  simp only [process_tile_box, Nat.even_iff]
  refine ⟨?_, ?_, ⟨?_, ?_⟩, ?_, ⟨?_, ?_⟩, ?_⟩ <;> omega

/-- C6: `error` is the sum over all positions of the squared integer
difference of corresponding values, so for equally-shaped operands it is
nonnegative, zero on identical operands, and symmetric. -/
theorem error_props (a b t : List Int) (hlen : a.length = b.length) :
    0 ≤ error a b ∧ error t t = 0 ∧ error a b = error b a :=
  ⟨error_nonneg a b, error_self t, error_comm a b⟩

theorem error_props_witness :
    0 ≤ error [3, 5] [1, 9] ∧ error [2, 4] [2, 4] = 0 ∧
      error [3, 5] [1, 9] = error [1, 9] [3, 5] :=
  error_props [3, 5] [1, 9] [2, 4] rfl

/-- C7: with a valid method and positive tile size, when the size exceeds
the smaller dimension of the prepared target the run exits with the
tiles-too-large failure after preparing the target (the only event in the
trace) and before loading tiles or matching. -/
theorem main_tile_too_large (imgW imgH : Nat) (size scale : Int)
    (method : String) (hsize : 0 < size)
    (hm : method = "avg" ∨ method = "diff")
    (hbig : size > min
        (get_target_dims imgW imgH size (if scale < 1 then 1 else scale)).1
        (get_target_dims imgW imgH size (if scale < 1 then 1 else scale)).2) :
    main_run imgW imgH size scale method =
      ([Event.targetPrepared], MainResult.tilesTooLarge) := by
  have hmethod : ¬ (method ≠ "avg" ∧ method ≠ "diff") := by
    rcases hm with h | h <;> simp [h]
  simp only [main_run, if_neg hmethod, if_pos hbig]

theorem main_tile_too_large_witness :
    main_run 10 10 20 1 "avg" =
      ([Event.targetPrepared], MainResult.tilesTooLarge) :=
  main_tile_too_large 10 10 20 1 "avg" (by decide) (Or.inl rfl) (by decide)

/-- C8: a method other than 'avg' and 'diff' makes the run exit with the
unknown-method failure before the target is prepared and before any tiles
are loaded (empty event trace). -/
theorem main_unknown_method (imgW imgH : Nat) (size scale : Int)
    (method : String) (ha : method ≠ "avg") (hd : method ≠ "diff") :
    main_run imgW imgH size scale method = ([], MainResult.unknownMethod) := by
  simp only [main_run, if_pos (And.intro ha hd)]

theorem main_unknown_method_witness :
    main_run 10 10 2 1 "fast" = ([], MainResult.unknownMethod) :=
  main_unknown_method 10 10 2 1 "fast" (by decide) (by decide)

/-- C9: with an empty tile collection (and, in 'avg' mode, an empty cache),
`find_best_match` returns no tile in either mode; the matching loop then
completes and the pipeline fails at the compositor's paste step (pasting
`None` into the output buffer) instead of reporting a configuration error
before matching. -/
theorem empty_tiles_paste_failure (f : Img → Color) (target image : Img)
    (ts : Nat × Nat) (method : String) (cache : List Color)
    (hm : method = "avg" ∨ method = "diff") :
    find_best_match f target [] "avg" [] = FBMResult.ok none [] ∧
    find_best_match f target [] "diff" cache = FBMResult.ok none cache ∧
    ((gridify image ts).flatten ≠ [] →
      mosaic_run f image [] ts method [] =
        MosaicRun.finished
          (MosaicOutcome.pasteError image.width image.height) []) := by
  refine ⟨?_, ?_, ?_⟩
  · rw [find_best_match_avg_empty]
    rfl
  · rw [find_best_match_diff]
    rfl
  · intro hne
    have hmc := match_cells_no_tiles f method hm (gridify image ts).flatten
    simp only [mosaic_run, hmc]
    obtain ⟨c, cs, hcells⟩ := List.exists_cons_of_ne_nil hne
    rw [hcells]
    simp [mosaic_alloc_size]

theorem empty_tiles_paste_failure_witness :
    find_best_match (fun _ => [0]) (Img.mk [[[0]]]) [] "avg" [] =
      FBMResult.ok none [] ∧
    find_best_match (fun _ => [0]) (Img.mk [[[0]]]) [] "diff" [[4]] =
      FBMResult.ok none [[4]] ∧
    ((gridify (Img.mk [[[1]]]) (1, 1)).flatten ≠ [] →
      mosaic_run (fun _ => [0]) (Img.mk [[[1]]]) [] (1, 1) "avg" [] =
        MosaicRun.finished
          (MosaicOutcome.pasteError (Img.mk [[[1]]]).width
            (Img.mk [[[1]]]).height) []) :=
  empty_tiles_paste_failure (fun _ => [0]) (Img.mk [[[0]]]) (Img.mk [[[1]]])
    (1, 1) "avg" [[4]] (Or.inl rfl)

/-- C10: `cached_avgs` is append-only shared state: no call clears or
overwrites it, and only the first 'avg'-mode scan over an empty cache
appends (every tile's average, in order).  Whenever the cache is non-empty,
an 'avg'-mode call computes its result from the existing cache: it leaves
the cache untouched and recomputes no tile average (the result depends on
`avg_rgb` only through the target's own average), even if the cache came
from a different tile collection.  The same append-only persistence holds
across whole `mosaic` calls. -/
theorem cached_avgs_append_only (f : Img → Color) (target : Img)
    (tiles : List Img) (method : String) (cache : List Color) :
    ((find_best_match f target tiles method cache).cacheOut =
      cache ++ (if method = "avg" ∧ cache = [] then tiles.map f else [])) ∧
    (method = "avg" → cache ≠ [] →
      (find_best_match f target tiles method cache).cacheOut = cache ∧
      ∀ g : Img → Color, g target = f target →
        find_best_match g target tiles method cache =
          find_best_match f target tiles method cache) ∧
    (∀ (image : Img) (ts : Nat × Nat), ∃ s,
      (mosaic_run f image tiles ts method cache).cacheOut = cache ++ s) := by
  refine ⟨find_best_match_cache_extends f target tiles method cache, ?_, ?_⟩
  · intro hm hc
    subst hm
    constructor
    · rw [find_best_match_cache_extends]
      simp [hc]
    · intro g hg
      simp only [find_best_match, if_pos rfl, if_neg hc, hg]
  · intro image ts
    exact mosaic_run_cache_extends f image tiles ts method cache

theorem cached_avgs_append_only_witness :
    (find_best_match (fun _ => ([2] : Color)) (Img.mk [[[0]]])
        [Img.mk [[[1]]]] "avg" [[9]]).cacheOut = [[9]] ++
      (if "avg" = "avg" ∧ ([[9]] : List Color) = [] then
        [Img.mk [[[1]]]].map (fun _ => ([2] : Color)) else []) ∧
    find_best_match
        (fun i => if i = Img.mk [[[0]]] then ([2] : Color) else [7])
        (Img.mk [[[0]]]) [Img.mk [[[1]]]] "avg" [[9]] =
      find_best_match (fun _ => ([2] : Color)) (Img.mk [[[0]]])
        [Img.mk [[[1]]]] "avg" [[9]] :=
  ⟨(cached_avgs_append_only (fun _ => [2]) (Img.mk [[[0]]])
      [Img.mk [[[1]]]] "avg" [[9]]).1,
   ((cached_avgs_append_only (fun _ => [2]) (Img.mk [[[0]]])
        [Img.mk [[[1]]]] "avg" [[9]]).2.1 rfl (by simp)).2
      (fun i => if i = Img.mk [[[0]]] then [2] else [7]) (by simp)⟩

end Mosaic
